import Mathlib

/-!
Verification of the hycast P2P overlay engine against its natural-language
specification. Shallow embedding of the relevant C++ code:

* `DataSeg.size` from `src/main/HycastProto.h` (payload-length formula);
* the `LinkedMap`/`LinkedSet` container from `src/main/misc/LinkedSet.cpp`;
* the `P2pMgr` run/halt/exception machinery, `tryAdd`/`tryAdd2` admission and
  `reassignPending` from `src/main/p2p-old/P2pMgr.cpp`;
* the `InAddr` ordering double dispatch from `src/main/net_io/InAddr.cpp`.

The `Bookkeeper` and `PeerSet` classes are declared and used by the code above
but their implementation files are not part of the tree; their operations are
modelled from the specification (each such definition carries a doc comment
starting with `Modelled from the spec:`).

Machine integers are modelled as `Nat` with explicit reductions modulo
`2 ^ 16` or `2 ^ 32` where C++ unsigned overflow or narrowing matters.
-/

namespace Hycast

/-! ### DataSeg (HycastProto.h)

The code declares `using ProdSize = uint32_t`, `using SegSize = uint16_t`,
`using SegOffset = ProdSize`.
-/

/-- Embeds `DataSeg::CANON_DATASEG_SIZE` from `HycastProto.h`, written as in the
source: `1500 - 20 - 20 - 4 - 4 - 4 - 4` (Ethernet payload minus IP header,
TCP header, PduId, prodIndex, offset, prodSize). -/
def CANON_DATASEG_SIZE : Nat := 1500 - 20 - 20 - 4 - 4 - 4 - 4

namespace DataSeg

/-- Embeds `DataSeg::size(ProdSize prodSize, SegOffset offset)` from
`HycastProto.h`:
`SegSize nbytes = prodSize - offset;` performs the `uint32_t` subtraction
(wrapping modulo `2 ^ 32`) and then narrows the result to the `uint16_t`
`SegSize` (reduction modulo `2 ^ 16`); the result is
`nbytes > CANON_DATASEG_SIZE ? CANON_DATASEG_SIZE : nbytes`.
The arguments stand for `uint32_t` values, i.e. are `< 2 ^ 32`. -/
def size (prodSize offset : Nat) : Nat :=
  let nbytes : Nat := ((prodSize + 4294967296 - offset) % 4294967296) % 65536
  if nbytes > CANON_DATASEG_SIZE then CANON_DATASEG_SIZE else nbytes

end DataSeg

/-! ### LinkedMap / LinkedSet (LinkedSet.cpp)

The container maps nonzero `Index` keys (`unsigned short`; index `0` means
"none") to entries `(value, prev, next)` that are also threaded into a
doubly-linked list with `head` and `tail` indices.
-/

/-- Embeds `LinkedSet<VALUE>::Impl::Entry`: the user value plus the indices of
the previous and next entries on the list (`0` = none). -/
structure LMEntry (V : Type) where
  value : V
  prev : Nat
  next : Nat
deriving Repr, DecidableEq

/-- Embeds the state of `LinkedSet<VALUE>::Impl`: the association
`map : Index -> Entry` (keys are distinct in any honestly built state) and the
`head` and `tail` indices of the list. -/
structure LinkedMap (V : Type) where
  map : List (Nat × LMEntry V)
  head : Nat
  tail : Nat
deriving Repr, DecidableEq

/-- Error outcomes of `LinkedMap` operations (`INVALID_ARGUMENT` throws). -/
inductive LMErr where
  | invalidArgument
deriving Repr, DecidableEq

namespace LinkedMap

variable {V : Type}

/-- The empty container (default constructor: `head(0)`, `tail(0)`). -/
def empty : LinkedMap V := ⟨[], 0, 0⟩

/-- Embeds `Impl::size()`: `return map.size();`. -/
def size (m : LinkedMap V) : Nat := m.map.length

/-- Lookup of the entry stored under a key (the `map.find(key)` part). -/
def findEntry (m : LinkedMap V) (key : Nat) : Option (LMEntry V) :=
  (m.map.find? (fun kv => kv.1 == key)).map (fun kv => kv.2)

/-- Embeds `Impl::find(key)`: a null pointer becomes `none`, otherwise the
value stored under the key. -/
def find (m : LinkedMap V) (key : Nat) : Option V :=
  (m.findEntry key).map (fun e => e.value)

/-- Updates the entry stored under `key` (models `map[key].next = ...` style
assignments; the key is present whenever the code performs them). -/
def setEntry (m : LinkedMap V) (key : Nat) (f : LMEntry V → LMEntry V) :
    LinkedMap V :=
  { m with map := m.map.map (fun kv => if kv.1 == key then (kv.1, f kv.2) else kv) }

/-- Embeds `Impl::add(key, value)`: an invalid (zero) key throws
`INVALID_ARGUMENT`; `map.insert` creates `Entry(value, tail)` (so
`prev = tail`, `next = 0`) only if the key is new, in which case the entry is
linked at the tail (`map[tail].next = key` or `head = key`, then
`tail = key`); the value now in the set is returned. -/
def add (m : LinkedMap V) (key : Nat) (value : V) :
    Except LMErr (V × LinkedMap V) :=
  if key == 0 then Except.error LMErr.invalidArgument
  else
    match m.findEntry key with
    | some e => Except.ok (e.value, m)
    | none =>
        let m1 : LinkedMap V :=
          { m with map := m.map ++ [(key, ⟨value, m.tail, 0⟩)] }
        let m2 : LinkedMap V :=
          if m.tail ≠ 0 then
            m1.setEntry m.tail (fun e => { e with next := key })
          else
            { m1 with head := key }
        Except.ok (value, { m2 with tail := key })

/-- Embeds `Impl::remove(key)`: a missing key throws `INVALID_ARGUMENT`;
otherwise the entry is unlinked from the doubly-linked list
(`map[entry.prev].next = entry.next` or `head = entry.next`;
`map[entry.next].prev = entry.prev` or `tail = entry.prev`) and
`entry.value` is returned. Note that the source never erases the entry from
`map` itself. -/
def remove (m : LinkedMap V) (key : Nat) : Except LMErr (V × LinkedMap V) :=
  match m.findEntry key with
  | none => Except.error LMErr.invalidArgument
  | some entry =>
      let m1 : LinkedMap V :=
        if entry.prev ≠ 0 then
          m.setEntry entry.prev (fun e => { e with next := entry.next })
        else
          { m with head := entry.next }
      let m2 : LinkedMap V :=
        if entry.next ≠ 0 then
          m1.setEntry entry.next (fun e => { e with prev := entry.prev })
        else
          { m1 with tail := entry.prev }
      Except.ok (entry.value, m2)

end LinkedMap

/-! ### P2pMgr run entry (P2pMgr.cpp, `operator()()` and `shutdown`)

`P2pMgr::Impl` holds `std::atomic<bool> executing` (documented as
"Has `operator()` been called?"). `operator()()` throws `LOGIC_ERROR` when
`executing` is true, and otherwise, when `done` is false, starts the manager
tasks. No statement in the source ever assigns `true` to `executing`: it is
initialized `false` by the constructor and `shutdown()` assigns `false`.
-/

/-- Error raised by `P2pMgr::Impl::operator()()` via `LOGIC_ERROR`. -/
inductive RunErr where
  | logicError
deriving Repr, DecidableEq

/-- The fields of `P2pMgr::Impl` consulted by `operator()()`, plus a counter of
how many times `startTasks()` has run. -/
structure MgrRunState where
  executing : Bool
  done : Bool
  startedCount : Nat
deriving Repr, DecidableEq

/-- The state after the constructor: `executing{false}`, `done{false}`. -/
def initialMgrRunState : MgrRunState := ⟨false, false, 0⟩

/-- Embeds the entry logic of `P2pMgr::Impl::operator()()`:
`if (executing) throw LOGIC_ERROR("Already called"); if (!done) startTasks();`.
Nothing in `operator()()`, `startTasks()` or anything they call assigns `true`
to `executing` (the only assignments in the source are the constructor's
`executing{false}` and `shutdown()`'s `executing = false`), so the field is
left unchanged here, exactly as in the source. -/
def runOp (s : MgrRunState) : Except RunErr MgrRunState :=
  if s.executing then Except.error RunErr.logicError
  else if s.done then Except.ok s
  else Except.ok { s with startedCount := s.startedCount + 1 }

/-! ### P2pMgr peer admission (P2pMgr.cpp, `tryAdd` / `tryAdd2`)

`tryAdd` runs under the manager mutex. `SubP2pMgr::tryAdd2` halts the worst
peer of a group and adds the incoming peer; the halted peer is only *halted*
(`worst.halt()`), not removed: removal from the peer set happens later, when
the peer's workers exit and `PeerSet` invokes the `stopped(peer)` callback.
`PubP2pMgr::tryAdd2` returns `true` without touching the peer set.
-/

/-- A member of the active peer set, as the admission logic sees it: its
identity, its remote `isPathToPub()` flag, its bookkeeper received-count and
its insertion time (for worst-peer tie-breaks). -/
structure PeerRec where
  pid : Nat
  isPathToPub : Bool
  count : Nat
  insertTime : Nat
deriving Repr, DecidableEq

/-- Picks the worse of two peers: lower count, oldest insertion time on ties. -/
def worsePeer (a b : PeerRec) : PeerRec :=
  if b.count < a.count ∨ (b.count = a.count ∧ b.insertTime < a.insertTime)
  then b else a

/-- Modelled from the spec: `SubBookkeeper::getWorstPeer(hasPathFlag)`
(`Bookkeeper.cpp` is absent from the tree). Per the spec it "restricts to
peers matching a given path flag" and returns the peer with the lowest
received-count, the one with the oldest insertion time on ties. -/
def getWorstPeer (peers : List PeerRec) (hasPathFlag : Bool) : Option PeerRec :=
  (peers.filter (fun p => p.isPathToPub == hasPathFlag)).foldl
    (fun acc p => match acc with
      | none => some p
      | some q => some (worsePeer q p))
    none

/-- Modelled from the spec: the first component of
`SubBookkeeper::getPubPathCounts` — the number of current peers whose
path-to-publisher flag is set. -/
def numPath (peers : List PeerRec) : Nat :=
  (peers.filter (fun p => p.isPathToPub)).length

/-- Modelled from the spec: the second component of
`SubBookkeeper::getPubPathCounts` — the number of current peers whose
path-to-publisher flag is clear. -/
def numNoPath (peers : List PeerRec) : Nat :=
  (peers.filter (fun p => !p.isPathToPub)).length

/-- The membership state a `P2pMgr` guards with its mutex: the bound
`maxPeers`, the active peer set (which still contains peers that have been
halted but whose `stopped` callback has not yet run), and the identities of
the peers halted so far. -/
structure MgrPeersState where
  maxPeers : Nat
  peers : List PeerRec
  haltedPids : List Nat
deriving Repr, DecidableEq

/-- The membership state after construction: no peers. -/
def initialPeers (maxPeers : Nat) : MgrPeersState := ⟨maxPeers, [], []⟩

/-- Embeds `SubP2pMgr::tryAdd2(peer)`: with `(numPath, numNoPath)` from the
bookkeeper and `rmtIsPathToPub = peer.isPathToPub()`, if
`(numPath < numNoPath) == rmtIsPathToPub` then the peer
`bookkeeper.getWorstPeer(rmtIsPathToPub)` — the worst peer whose flag equals
the *incoming* peer's flag — is halted (`worst.halt()`, which does not remove
it from the set) and the incoming peer is added; otherwise, or when that
group has no peer, nothing happens and `false` is returned. -/
def subTryAdd2 (s : MgrPeersState) (peer : PeerRec) : Bool × MgrPeersState :=
  let np := numPath s.peers
  let nn := numNoPath s.peers
  let rmtIsPathToPub := peer.isPathToPub
  if decide (np < nn) == rmtIsPathToPub then
    match getWorstPeer s.peers rmtIsPathToPub with
    | some worst =>
        (true, { s with peers := s.peers ++ [peer],
                        haltedPids := s.haltedPids ++ [worst.pid] })
    | none => (false, s)
  else (false, s)

/-- Embeds `PubP2pMgr::tryAdd2(peer)`: `return true;` — the peer set is left
untouched. -/
def pubTryAdd2 (s : MgrPeersState) (_peer : PeerRec) : Bool × MgrPeersState :=
  (true, s)

/-- Embeds `P2pMgr::Impl::tryAdd(peer)` (under the manager mutex): below
`maxPeers` the peer is added; above `maxPeers` it is rejected; at exactly
`maxPeers` the implementation-specific `tryAdd2` decides. The parameter
`tryAdd2` is `subTryAdd2` for a subscriber and `pubTryAdd2` for a
publisher. -/
def tryAdd (tryAdd2 : MgrPeersState → PeerRec → Bool × MgrPeersState)
    (s : MgrPeersState) (peer : PeerRec) : Bool × MgrPeersState :=
  let numPeers := s.peers.length
  if numPeers < s.maxPeers then
    (true, { s with peers := s.peers ++ [peer] })
  else if numPeers > s.maxPeers then
    (false, s)
  else
    tryAdd2 s peer

/-- Embeds the membership effect of `P2pMgr::Impl::stopped(peer)` (under the
manager mutex): the stopped peer leaves the peer set, the bookkeeper and the
address index. -/
def stoppedEvt (s : MgrPeersState) (pid : Nat) : MgrPeersState :=
  { s with peers := s.peers.filter (fun p => p.pid ≠ pid) }

/-- Embeds the membership effect of the improver halting the worst peer
(`peer.halt()` in `P2pMgr::Impl::improve`): the peer is only marked halted;
it remains in the set until `stopped` runs. -/
def haltEvt (s : MgrPeersState) (pid : Nat) : MgrPeersState :=
  { s with haltedPids := s.haltedPids ++ [pid] }

/-- One atomic membership step of a `P2pMgr` (each holds the manager mutex):
a subscriber or publisher `tryAdd`, a `stopped` callback, or an improver
halt. -/
inductive MgrStep : MgrPeersState → MgrPeersState → Prop where
  | subAdd (s : MgrPeersState) (peer : PeerRec) :
      MgrStep s (tryAdd subTryAdd2 s peer).2
  | pubAdd (s : MgrPeersState) (peer : PeerRec) :
      MgrStep s (tryAdd pubTryAdd2 s peer).2
  | stop (s : MgrPeersState) (pid : Nat) :
      MgrStep s (stoppedEvt s pid)
  | halt (s : MgrPeersState) (pid : Nat) :
      MgrStep s (haltEvt s pid)

/-- The membership states a `P2pMgr` with bound `maxPeers` can reach from
construction. -/
inductive MgrReachable (maxPeers : Nat) : MgrPeersState → Prop where
  | init : MgrReachable maxPeers (initialPeers maxPeers)
  | step {s t : MgrPeersState} : MgrReachable maxPeers s → MgrStep s t →
      MgrReachable maxPeers t

/-! ### P2pMgr exception propagation (P2pMgr.cpp, `setException`,
`waitUntilDone`, `halt`, `operator()()`)

`setException` stores an exception into the single `taskException` cell only
when the cell is still empty; `halt` sets `done`. `waitUntilDone` sleeps
while `!done && !taskException` and, once awake, rethrows only when
`!done && taskException`. In `operator()()` the rethrown exception is caught,
`shutdown()` runs, and the exception is rethrown out of the call; on the
normal path `shutdown()` also runs.
-/

/-- An event observed by the manager while `operator()()` waits: a
manager-owned task reporting an exception (`setException(ex)`), or a call of
`halt()`. Exceptions are identified by a number. -/
inductive TaskEvent where
  | taskExc (e : Nat)
  | haltCall
deriving Repr, DecidableEq

/-- The manager fields consulted by `waitUntilDone`: the `done` flag and the
`taskException` cell. -/
structure MgrFlags where
  done : Bool
  taskException : Option Nat
deriving Repr, DecidableEq

/-- Embeds the effect of one event on the manager state: `setException` stores
the exception only if the cell is empty ("Will only set it once");
`halt()` sets `done = true`. Both notify the condition variable. -/
def applyEvent (s : MgrFlags) : TaskEvent → MgrFlags
  | TaskEvent.taskExc e =>
      if s.taskException.isNone then { s with taskException := some e } else s
  | TaskEvent.haltCall => { s with done := true }

/-- The manager flags after a sequence of events, starting from the
constructed state (`done{false}`, `taskException{}`). -/
def runFlags (events : List TaskEvent) : MgrFlags :=
  events.foldl applyEvent ⟨false, none⟩

/-- How an `operator()()` call ends. -/
inductive RunOutcome where
  | normal
  | threw (e : Nat)
deriving Repr, DecidableEq

/-- Embeds the tail of `P2pMgr::Impl::operator()()` after `startTasks()`, for
a call that observes the given events: `waitUntilDone()` returns once
`done || taskException`; if it instead rethrows (`!done && taskException`)
the exception is caught, `shutdown()` runs and the exception leaves the
call; otherwise `shutdown()` runs and the call returns normally. The result
pairs the outcome with whether `shutdown()` ran; it is `none` when neither
`done` nor an exception ever arrives (the call is still blocked). -/
def runResult (events : List TaskEvent) : Option (RunOutcome × Bool) :=
  let s := runFlags events
  if s.done then some (RunOutcome.normal, true)
  else
    match s.taskException with
    | some e => some (RunOutcome.threw e, true)
    | none => none

/-- The first exception reported by any event of the run. -/
def firstExc : List TaskEvent → Option Nat
  | [] => none
  | TaskEvent.taskExc e :: _ => some e
  | TaskEvent.haltCall :: rest => firstExc rest

/-! ### Subscriber bookkeeper and its callers (P2pMgr.cpp, `SubP2pMgr`)

`Bookkeeper.cpp` is not part of the tree; the `SubBookkeeper` operations
below are modelled from the specification's descriptions. The callers —
`reassignPending`, `stopped`, `shouldRequest`, `hereIs` — are embedded from
`P2pMgr.cpp`. Peers are identified by their remote address, here a number;
a `NoteReq` (product index or data-segment identifier) is likewise a
number. -/

abbrev PeerId := Nat

/-- A `NoteReq`: the identifier of a product or data segment a peer was told
or asked about. -/
abbrev NR := Nat

/-- Modelled from the spec: the state of the subscriber bookkeeper
(`Bookkeeper.cpp` is absent from the tree) —
`requestedOf` holds the outstanding request assignments `(peer, item)`;
`altsOf item` is the ordered list of alternate peers that announced the item
but were not picked; `knownBy item` is the per-item announcement index
(every peer that announced the item, in arrival order); `countOf` is the
per-peer received-count. -/
structure SubBookkeeper where
  requestedOf : List (PeerId × NR)
  altsOf : NR → List PeerId
  knownBy : NR → List PeerId
  countOf : PeerId → Nat

namespace SubBookkeeper

/-- Modelled from the spec: `requested[peer]` — the set of outstanding
requests dispatched to the peer, read by `reassignPending` before the peer
is erased. -/
def getRequested (bk : SubBookkeeper) (peer : PeerId) : List NR :=
  (bk.requestedOf.filter (fun pr => pr.1 == peer)).map (fun pr => pr.2)

/-- Modelled from the spec: `popBestAlt(NoteReq)` pops the head of
`alternates[NoteReq]`, if any. -/
def popBestAlt (bk : SubBookkeeper) (r : NR) : Option PeerId × SubBookkeeper :=
  match bk.altsOf r with
  | [] => (none, bk)
  | a :: rest =>
      (some a,
       { bk with altsOf := fun c => if c = r then rest else bk.altsOf c })

/-- Modelled from the spec: `requested(peer, NoteReq)` records an
assignment. -/
def requested (bk : SubBookkeeper) (peer : PeerId) (r : NR) : SubBookkeeper :=
  { bk with requestedOf := bk.requestedOf ++ [(peer, r)] }

/-- Modelled from the spec: `erase(peer)` purges all of the peer's entries. -/
def erase (bk : SubBookkeeper) (peer : PeerId) : SubBookkeeper :=
  { bk with
      requestedOf := bk.requestedOf.filter (fun pr => pr.1 ≠ peer),
      altsOf := fun c => (bk.altsOf c).filter (fun q => q ≠ peer),
      knownBy := fun c => (bk.knownBy c).filter (fun q => q ≠ peer) }

/-- Modelled from the spec: `shouldRequest(peer, NoteReq)` of the subscriber
bookkeeper returns true iff no peer currently has the item in the
bookkeeper's per-item index (nobody announced it or holds it outstanding),
and marks the item as announced by the peer. -/
def shouldRequest (bk : SubBookkeeper) (peer : PeerId) (r : NR) :
    Bool × SubBookkeeper :=
  ((bk.knownBy r).isEmpty,
   { bk with
       knownBy := fun c =>
         if c = r then bk.knownBy c ++ [peer] else bk.knownBy c })

/-- An item counts as outstanding for the bookkeeper's `shouldRequest` check
when its per-item index already has an entry. -/
def outstanding (bk : SubBookkeeper) (r : NR) : Bool :=
  !(bk.knownBy r).isEmpty

/-- Modelled from the spec: `received(peer, NoteReq)` returns true only if the
item was outstanding from exactly this peer; it then removes the assignment
and bumps the peer's counter. -/
def received (bk : SubBookkeeper) (peer : PeerId) (r : NR) :
    Bool × SubBookkeeper :=
  if (peer, r) ∈ bk.requestedOf then
    (true,
     { bk with
         requestedOf := bk.requestedOf.filter (fun pr => pr.2 ≠ r),
         countOf := fun q => if q = peer then bk.countOf q + 1 else bk.countOf q })
  else (false, bk)

end SubBookkeeper

/-- Modelled from the spec: `PeerSet::notify(item, exclude_peer)` broadcasts
the notice to every active peer, skipping the excluded source peer; the
result lists the recipients. -/
def peerSetNotify (allPeers : List PeerId) (exclude : PeerId) : List PeerId :=
  allPeers.filter (fun q => q ≠ exclude)

/-- The step `reassignPending` performs for one outstanding request: pop the
best alternate for the item; if one exists, send the request to it
(`chunkId.request(altPeer)`, collected in the second component) and record
the assignment (`bookkeeper.requested(altPeer, chunkId)`). -/
def reassignStep (acc : SubBookkeeper × List (PeerId × NR)) (chunkId : NR) :
    SubBookkeeper × List (PeerId × NR) :=
  match SubBookkeeper.popBestAlt acc.1 chunkId with
  | (some altPeer, bk1) =>
      (SubBookkeeper.requested bk1 altPeer chunkId, acc.2 ++ [(altPeer, chunkId)])
  | (none, bk1) => (bk1, acc.2)

/-- Embeds `SubP2pMgr::reassignPending(peer)`: for each of the peer's
outstanding requests (taken from the bookkeeper), pop the best alternate
and, if one exists, send the request there and record the assignment. The
second component collects the requests sent. -/
def reassignPending (bk : SubBookkeeper) (peer : PeerId) :
    SubBookkeeper × List (PeerId × NR) :=
  let chunkIds := SubBookkeeper.getRequested bk peer
  chunkIds.foldl reassignStep (bk, [])

/-- Embeds the subscriber part of `P2pMgr::Impl::stopped(peer)`:
`stopped2(peer)` runs `reassignPending(peer)` first, and only then does
`stopped` call `getBookkeeper().erase(peer)`. -/
def stoppedSub (bk : SubBookkeeper) (peer : PeerId) :
    SubBookkeeper × List (PeerId × NR) :=
  let res := reassignPending bk peer
  (SubBookkeeper.erase res.1 peer, res.2)

/-- Embeds `SubP2pMgr::shouldRequest(rmtAddr, item)`: the bookkeeper decides
first (with its announcement side effect), and only if it said yes is the
upper layer `p2pSub.shouldRequest(item)` (the pure predicate `wants`)
consulted. -/
def subShouldRequest (wants : NR → Bool) (bk : SubBookkeeper) (peer : PeerId)
    (r : NR) : Bool × SubBookkeeper :=
  let res := SubBookkeeper.shouldRequest bk peer r
  if res.1 then (wants r, res.2) else (false, res.2)

/-- Embeds `SubP2pMgr::hereIs(rmtAddr, item)` (the `ProdInfo` and `TcpSeg`
overloads share this shape): if `bookkeeper.received` fails the item was not
requested from this peer and `false` is returned; if the upper layer
`p2pSub.hereIsP2p` (the pure predicate `accept`) does not newly accept the
item, `false` is returned; otherwise the peer set is notified with the
source peer excluded and `true` is returned. The third component lists the
peers to which a notice goes. -/
def hereIs (accept : NR → Bool) (bk : SubBookkeeper) (allPeers : List PeerId)
    (peer : PeerId) (r : NR) : Bool × SubBookkeeper × List PeerId :=
  let res := SubBookkeeper.received bk peer r
  if !res.1 then (false, res.2, [])
  else if !(accept r) then (false, res.2, [])
  else (true, res.2, peerSetNotify allPeers peer)

/-! ### InAddr ordering (InAddr.cpp)

`InAddr::operator<` dispatches `pImpl->operator<(*rhs.pImpl)`; each concrete
implementation (`In4Addr`, `In6Addr`, `NameAddr`) defines
`operator<(const Impl& rhs)` as `!(rhs < *this) && !(rhs == *this)`, where
`rhs < *this` and `rhs == *this` dispatch on `rhs`'s dynamic type against the
concrete type of `*this`. IPv4 payloads are the four bytes of `s_addr` as
stored (network order); `operator<` compares `ntohl` values and `operator==`
compares the stored bytes. IPv6 payloads are sixteen bytes compared with
`memcmp`; names are strings compared with `std::string` order (byte-wise).
-/

/-- Embeds `ntohl(addr.s_addr)`: the host-byte-order numeric value of an IPv4
address's bytes as they sit in memory (network byte order, so the value is
the big-endian interpretation of the bytes). -/
def ntohl (bytes : List Nat) : Nat :=
  bytes.foldl (fun acc b => acc * 256 + b) 0

/-- An `InAddr`: IPv4 (`In4Addr`, four bytes in network order), IPv6
(`In6Addr`, sixteen bytes), or a host name (`NameAddr`, the bytes of the
string). -/
inductive InAddr where
  | in4 (bytes : List Nat)
  | in6 (bytes : List Nat)
  | name (chars : List Nat)
deriving Repr, DecidableEq

/-- Byte-wise lexicographic strict order: `memcmp(a, b, n) < 0` for
equal-length byte arrays, and `std::string` `operator<` for strings. -/
def bytesLt : List Nat → List Nat → Bool
  | _, [] => false
  | [], _ :: _ => true
  | a :: as, b :: bs => decide (a < b) || (decide (a = b) && bytesLt as bs)

/-- Embeds the virtual `operator<(const In4Addr& x)` overloads: how each
dynamic variant compares against a concrete `In4Addr` (an `In4Addr` by
`ntohl` value; `In6Addr` and `NameAddr` answer `false`). -/
def ltAgainst4 : InAddr → List Nat → Bool
  | InAddr.in4 rb, x => decide (ntohl rb < ntohl x)
  | InAddr.in6 _, _ => false
  | InAddr.name _, _ => false

/-- Embeds the virtual `operator==(const In4Addr& x)` overloads (`In4Addr`
compares the stored `s_addr` bytes; the others answer `false`). -/
def eqAgainst4 : InAddr → List Nat → Bool
  | InAddr.in4 rb, x => rb == x
  | InAddr.in6 _, _ => false
  | InAddr.name _, _ => false

/-- Embeds the virtual `operator<(const In6Addr& x)` overloads (`In4Addr`
answers `true`; `In6Addr` compares with `memcmp`; `NameAddr` answers
`false`). -/
def ltAgainst6 : InAddr → List Nat → Bool
  | InAddr.in4 _, _ => true
  | InAddr.in6 rb, x => bytesLt rb x
  | InAddr.name _, _ => false

/-- Embeds the virtual `operator==(const In6Addr& x)` overloads. -/
def eqAgainst6 : InAddr → List Nat → Bool
  | InAddr.in4 _, _ => false
  | InAddr.in6 rb, x => rb == x
  | InAddr.name _, _ => false

/-- Embeds the virtual `operator<(const NameAddr& x)` overloads (`In4Addr`
and `In6Addr` answer `true`; `NameAddr` compares the strings). -/
def ltAgainstName : InAddr → List Nat → Bool
  | InAddr.in4 _, _ => true
  | InAddr.in6 _, _ => true
  | InAddr.name rb, x => bytesLt rb x

/-- Embeds the virtual `operator==(const NameAddr& x)` overloads. -/
def eqAgainstName : InAddr → List Nat → Bool
  | InAddr.in4 _, _ => false
  | InAddr.in6 _, _ => false
  | InAddr.name rb, x => rb == x

/-- Embeds `InAddr::operator<(rhs)`: the dispatch lands in the concrete
implementation of the left operand, which computes
`!(rhs < *this) && !(rhs == *this)` through the double-dispatch overloads
above. -/
def InAddr.lt (a b : InAddr) : Bool :=
  match a with
  | InAddr.in4 x => !(ltAgainst4 b x) && !(eqAgainst4 b x)
  | InAddr.in6 x => !(ltAgainst6 b x) && !(eqAgainst6 b x)
  | InAddr.name x => !(ltAgainstName b x) && !(eqAgainstName b x)

/-- The tag rank of the specification's ordering: v4 < v6 < name. -/
def tagRank : InAddr → Nat
  | InAddr.in4 _ => 0
  | InAddr.in6 _ => 1
  | InAddr.name _ => 2

/-- The ordering as the specification words it (stated for comparison with
the embedded `InAddr.lt`): lexicographic on `(tag, payload)` with tag order
v4 < v6 < name; IPv4 payloads by host-byte-order numeric value, IPv6
payloads byte-wise, names by string order. -/
def lexLt (a b : InAddr) : Bool :=
  match a, b with
  | InAddr.in4 x, InAddr.in4 y => decide (ntohl x < ntohl y)
  | InAddr.in6 x, InAddr.in6 y => bytesLt x y
  | InAddr.name x, InAddr.name y => bytesLt x y
  | _, _ => decide (tagRank a < tagRank b)

/-- Well-formed payloads: an IPv4 address holds four bytes and an IPv6
address sixteen, each byte below 256; a name is any byte string. -/
def InAddr.wf : InAddr → Prop
  | InAddr.in4 bytes => bytes.length = 4 ∧ ∀ b ∈ bytes, b < 256
  | InAddr.in6 bytes => bytes.length = 16 ∧ ∀ b ∈ bytes, b < 256
  | InAddr.name _ => True

end Hycast

/-! ## Theorems -/

namespace Hycast

/-- C4: the claim asserts `DataSeg::size prodSize offset = min (prodSize -
offset) canonical` with canonical segment size `1448`. It is false at the
concrete input `prodSize = 65536`, `offset = 0` (which satisfies
`offset ≤ prodSize`): the code returns `0` — the `uint16_t` narrowing of
`65536` — while the claimed formula gives `min 65536 1448 = 1448`. The code's
canonical size is moreover `1444`, not `1448`. -/
theorem dataSegSize_claim_false :
    0 ≤ 65536 ∧ ¬ (DataSeg.size 65536 0 = min (65536 - 0) 1448) := by
  constructor
  · exact Nat.zero_le _
  · decide

/-- C4 (amended): for `offset ≤ prodSize < 2 ^ 32`, the payload length returned
by `DataSeg::size` equals `min ((prodSize - offset) % 2 ^ 16)
CANON_DATASEG_SIZE`, where the canonical segment size `CANON_DATASEG_SIZE`
is `1444` bytes: the `uint32_t` difference is first narrowed to the
`uint16_t` type `SegSize` and then capped at the canonical size. -/
theorem dataSegSize_eq_min (prodSize offset : Nat)
    (hle : offset ≤ prodSize) (hlt : prodSize < 4294967296) :
    DataSeg.size prodSize offset = min ((prodSize - offset) % 65536) 1444 := by
  unfold DataSeg.size CANON_DATASEG_SIZE
  have h1 : prodSize + 4294967296 - offset = (prodSize - offset) + 4294967296 := by
    omega
  have h2 : (prodSize + 4294967296 - offset) % 4294967296 = prodSize - offset := by
    rw [h1, Nat.add_mod_right]
    exact Nat.mod_eq_of_lt (by omega)
  simp only [h2]
  rcases Nat.lt_or_ge ((prodSize - offset) % 65536) 1445 with h | h
  · rw [if_neg (by omega)]
    omega
  · rw [if_pos (by omega)]
    omega

/-- C4 (witness): the amended formula evaluated at `prodSize = 65536 + 100`,
`offset = 0`. -/
theorem dataSegSize_eq_min_witness :
    DataSeg.size 65636 0 = min ((65636 - 0) % 65536) 1444 :=
  dataSegSize_eq_min 65636 0 (by decide) (by decide)

/-- C10: the claim asserts that after `LinkedMap::remove(key)` returns the
removed value for an existing key, the entry is fully gone: `find(key)`
returns null, `size()` drops by one, and the entry leaves the head-to-tail
list. On the concrete input — an empty map, then `add 1 42`, then
`remove 1` — `remove` does return the value `42` and the entry does leave the
list (`head = tail = 0`), but the source never erases the entry from `map`,
so `find 1` still returns `42` and `size` is still `1` (the claim requires
`none` and `0`). -/
theorem linkedMap_remove_leaves_entry :
    (LinkedMap.empty.add 1 42 =
      Except.ok (42, (⟨[(1, ⟨42, 0, 0⟩)], 1, 1⟩ : LinkedMap Nat))) ∧
    ((⟨[(1, ⟨42, 0, 0⟩)], 1, 1⟩ : LinkedMap Nat).remove 1 =
      Except.ok (42, (⟨[(1, ⟨42, 0, 0⟩)], 0, 0⟩ : LinkedMap Nat))) ∧
    (⟨[(1, ⟨42, 0, 0⟩)], 0, 0⟩ : LinkedMap Nat).head = 0 ∧
    (⟨[(1, ⟨42, 0, 0⟩)], 0, 0⟩ : LinkedMap Nat).tail = 0 ∧
    ¬ ((⟨[(1, ⟨42, 0, 0⟩)], 0, 0⟩ : LinkedMap Nat).find 1 = none) ∧
    ¬ ((⟨[(1, ⟨42, 0, 0⟩)], 0, 0⟩ : LinkedMap Nat).size =
        (⟨[(1, ⟨42, 0, 0⟩)], 1, 1⟩ : LinkedMap Nat).size - 1) ∧
    (⟨[(1, ⟨42, 0, 0⟩)], 0, 0⟩ : LinkedMap Nat).find 1 = some 42 ∧
    (⟨[(1, ⟨42, 0, 0⟩)], 0, 0⟩ : LinkedMap Nat).size = 1 := by
  refine ⟨rfl, rfl, rfl, rfl, by decide, by decide, rfl, rfl⟩

/-- C1: the claim asserts that a second call of `P2pMgr` `operator()()` fails
with `LogicError` and that only the first call starts the manager's tasks.
On the concrete input — a freshly constructed manager, `operator()()` called
twice (the second call arriving while the first is still executing, i.e.
before `halt()` sets `done`) — the source throws nothing: `executing` is
never assigned `true`, so the `if (executing) throw LOGIC_ERROR` guard never
fires, and the second call starts the tasks a second time. -/
theorem runOp_twice_no_logicError :
    runOp initialMgrRunState = Except.ok ⟨false, false, 1⟩ ∧
    runOp ⟨false, false, 1⟩ = Except.ok ⟨false, false, 2⟩ ∧
    ¬ (runOp ⟨false, false, 1⟩ = Except.error RunErr.logicError) := by
  refine ⟨rfl, rfl, fun h => Except.noConfusion h⟩

/-- C2: the claim asserts that when a saturated subscriber admits a peer whose
path flag marks the under-represented group, the halted victim is the worst
peer of the *over-represented* group (the flag opposite to the incoming
peer's). On the concrete input — `maxPeers = 3`, peers `1` (path), `2` and
`3` (no path), incoming peer `4` with path — the incoming peer belongs to the
under-represented group (`numPath = 1 < 2 = numNoPath`) and is admitted, but
the source halts `getWorstPeer(rmtIsPathToPub)` — peer `1`, the worst of the
*same* (path) group — not peer `2`, the worst of the over-represented
no-path group. -/
theorem subTryAdd2_halts_same_group :
    numPath [⟨1, true, 5, 1⟩, ⟨2, false, 3, 2⟩, ⟨3, false, 4, 3⟩] <
      numNoPath [⟨1, true, 5, 1⟩, ⟨2, false, 3, 2⟩, ⟨3, false, 4, 3⟩] ∧
    (subTryAdd2 ⟨3, [⟨1, true, 5, 1⟩, ⟨2, false, 3, 2⟩, ⟨3, false, 4, 3⟩], []⟩
        ⟨4, true, 0, 4⟩).1 = true ∧
    (subTryAdd2 ⟨3, [⟨1, true, 5, 1⟩, ⟨2, false, 3, 2⟩, ⟨3, false, 4, 3⟩], []⟩
        ⟨4, true, 0, 4⟩).2.haltedPids = [1] ∧
    getWorstPeer [⟨1, true, 5, 1⟩, ⟨2, false, 3, 2⟩, ⟨3, false, 4, 3⟩] true =
      some ⟨1, true, 5, 1⟩ ∧
    getWorstPeer [⟨1, true, 5, 1⟩, ⟨2, false, 3, 2⟩, ⟨3, false, 4, 3⟩] false =
      some ⟨2, false, 3, 2⟩ := by
  decide

/-- C3: the claim asserts that the active peer count never exceeds `maxPeers`,
including during the replacement of a peer under saturation. It is false at
a concrete execution with `maxPeers = 2`: add peers `1` (path) and `2`
(no path), then offer peer `3` (no path). The set is saturated and balanced
(`numPath = numNoPath = 1`), so `tryAdd2` halts peer `2` and adds peer `3`;
but the halted peer remains a member until its `stopped` callback runs, so
the reachable state holds three active peers. -/
theorem peerCount_exceeds_maxPeers :
    MgrReachable 2
      ⟨2, [⟨1, true, 0, 1⟩, ⟨2, false, 0, 2⟩, ⟨3, false, 0, 3⟩], [2]⟩ ∧
    ¬ ((⟨2, [⟨1, true, 0, 1⟩, ⟨2, false, 0, 2⟩, ⟨3, false, 0, 3⟩], [2]⟩ :
        MgrPeersState).peers.length ≤ 2) := by
  constructor
  · exact MgrReachable.step (MgrReachable.step (MgrReachable.step
      MgrReachable.init
      (MgrStep.subAdd _ ⟨1, true, 0, 1⟩))
      (MgrStep.subAdd _ ⟨2, false, 0, 2⟩))
      (MgrStep.subAdd _ ⟨3, false, 0, 3⟩)
  · decide

lemma subTryAdd2_step_bound (s : MgrPeersState) (p : PeerRec) :
    (subTryAdd2 s p).2.peers.length ≤ s.peers.length + 1 ∧
    (subTryAdd2 s p).2.maxPeers = s.maxPeers := by
  unfold subTryAdd2
  dsimp only
  split
  · split
    · constructor
      · simp
      · rfl
    · exact ⟨Nat.le_succ _, rfl⟩
  · exact ⟨Nat.le_succ _, rfl⟩

lemma pubTryAdd2_step_bound (s : MgrPeersState) (p : PeerRec) :
    (pubTryAdd2 s p).2.peers.length ≤ s.peers.length + 1 ∧
    (pubTryAdd2 s p).2.maxPeers = s.maxPeers :=
  ⟨Nat.le_succ _, rfl⟩

lemma tryAdd_preserves_bound
    (f : MgrPeersState → PeerRec → Bool × MgrPeersState)
    (hf : ∀ s p, (f s p).2.peers.length ≤ s.peers.length + 1 ∧
        (f s p).2.maxPeers = s.maxPeers)
    (s : MgrPeersState) (p : PeerRec)
    (h : s.peers.length ≤ s.maxPeers + 1) :
    (tryAdd f s p).2.peers.length ≤ (tryAdd f s p).2.maxPeers + 1 := by
  unfold tryAdd
  dsimp only
  split
  · rename_i hlt
    simp only [List.length_append, List.length_cons, List.length_nil]
    omega
  · rename_i hge
    split
    · exact h
    · rename_i hngt
      rcases hf s p with ⟨h1, h2⟩
      rw [h2]
      omega

/-- C3 (amended): at every point in every execution of a `P2pMgr` the number
of active peers is at most `maxPeers + 1`. The bound `maxPeers` itself is
exceeded — by exactly one — only transiently during a subscriber peer
replacement, because the evicted peer is merely halted and stays in the set
until its `stopped` callback removes it. -/
theorem peerCount_le_maxPeers_succ (maxPeers : Nat) (s : MgrPeersState)
    (h : MgrReachable maxPeers s) : s.peers.length ≤ s.maxPeers + 1 := by
  induction h with
  | init => exact Nat.le_succ_of_le (Nat.zero_le _)
  | step _ hstep ih =>
      cases hstep with
      | subAdd p => exact tryAdd_preserves_bound _ subTryAdd2_step_bound _ p ih
      | pubAdd p => exact tryAdd_preserves_bound _ pubTryAdd2_step_bound _ p ih
      | stop pid =>
          exact Nat.le_trans (Nat.add_le_add_right (List.length_filter_le _ _) 0)
            ih
      | halt pid => exact ih

/-- C3 (witness): the amended bound at the concrete reachable state obtained
by admitting peer `1` into a fresh subscriber manager with `maxPeers = 2`. -/
theorem peerCount_le_maxPeers_succ_witness :
    (tryAdd subTryAdd2 (initialPeers 2) ⟨1, true, 0, 1⟩).2.peers.length ≤
      (tryAdd subTryAdd2 (initialPeers 2) ⟨1, true, 0, 1⟩).2.maxPeers + 1 :=
  peerCount_le_maxPeers_succ 2 _
    (MgrReachable.step MgrReachable.init (MgrStep.subAdd _ ⟨1, true, 0, 1⟩))

lemma foldl_applyEvent_keeps_exc (events : List TaskEvent) :
    ∀ (s : MgrFlags) (e : Nat), s.taskException = some e →
      (events.foldl applyEvent s).taskException = some e := by
  induction events with
  | nil => intro s e h; exact h
  | cons ev rest ih =>
      intro s e h
      cases ev with
      | taskExc e2 =>
          have : applyEvent s (TaskEvent.taskExc e2) = s := by
            unfold applyEvent
            rw [h]
            rfl
          rw [List.foldl_cons, this]
          exact ih s e h
      | haltCall =>
          rw [List.foldl_cons]
          exact ih _ e h

lemma foldl_applyEvent_firstExc (events : List TaskEvent) :
    ∀ d : Bool,
      (events.foldl applyEvent ⟨d, none⟩).taskException = firstExc events := by
  induction events with
  | nil => intro d; rfl
  | cons ev rest ih =>
      intro d
      cases ev with
      | taskExc e =>
          rw [List.foldl_cons]
          exact foldl_applyEvent_keeps_exc rest _ e rfl
      | haltCall =>
          rw [List.foldl_cons]
          exact ih true

/-- C8 (amended): for every execution in which a manager-owned task reports an
exception, only the first reported exception is captured into the single
`taskException` cell; if `halt()` was never called, the `run()` call
performs a clean shutdown and rethrows that first exception; if `halt()`
was also called, `run()` performs the clean shutdown but returns normally
without rethrowing (`waitUntilDone` rethrows only when `!done`). -/
theorem taskException_first_and_rethrow (events : List TaskEvent) (e : Nat)
    (hfirst : firstExc events = some e) :
    (runFlags events).taskException = some e ∧
    ((runFlags events).done = false →
      runResult events = some (RunOutcome.threw e, true)) ∧
    ((runFlags events).done = true →
      runResult events = some (RunOutcome.normal, true)) := by
  have hexc : (runFlags events).taskException = some e := by
    rw [runFlags, foldl_applyEvent_firstExc events false, hfirst]
  refine ⟨hexc, ?_, ?_⟩
  · intro hdone
    unfold runResult
    dsimp only
    rw [hdone, hexc]
    rfl
  · intro hdone
    unfold runResult
    dsimp only
    rw [hdone]
    rfl

/-- C8 (witness): the amended statement at the concrete run in which a single
task reports exception `5` and `halt()` is never called. -/
theorem taskException_first_and_rethrow_witness :
    (runFlags [TaskEvent.taskExc 5]).taskException = some 5 ∧
    ((runFlags [TaskEvent.taskExc 5]).done = false →
      runResult [TaskEvent.taskExc 5] = some (RunOutcome.threw 5, true)) ∧
    ((runFlags [TaskEvent.taskExc 5]).done = true →
      runResult [TaskEvent.taskExc 5] = some (RunOutcome.normal, true)) :=
  taskException_first_and_rethrow [TaskEvent.taskExc 5] 5 rfl

/-- C6: `SubP2pMgr::shouldRequest(peer, item)` returns true iff the item is
not outstanding at the bookkeeper and the upper layer still wants it; and a
second call with the same `(peer, item)` returns false, because the first
call marked the item as announced by the peer. -/
theorem shouldRequest_iff_idempotent (wants : NR → Bool) (bk : SubBookkeeper)
    (peer : PeerId) (r : NR) :
    (subShouldRequest wants bk peer r).1 =
      (!SubBookkeeper.outstanding bk r && wants r) ∧
    (subShouldRequest wants (subShouldRequest wants bk peer r).2 peer r).1 =
      false := by
  unfold subShouldRequest SubBookkeeper.shouldRequest SubBookkeeper.outstanding
  dsimp only
  constructor
  · cases h : (bk.knownBy r).isEmpty <;> simp [h]
  · cases h : (bk.knownBy r).isEmpty <;> simp [h]

/-- C7: `SubP2pMgr::hereIs(peer, item)` accepts the item iff it was
outstanding from exactly that peer and the upper layer newly accepted it;
when it accepts, a notice goes to every peer except the source peer, and
when either check fails it returns false and no notice is broadcast. -/
theorem hereIs_accepts_iff (accept : NR → Bool) (bk : SubBookkeeper)
    (allPeers : List PeerId) (peer : PeerId) (r : NR) :
    (hereIs accept bk allPeers peer r).1 =
      (decide ((peer, r) ∈ bk.requestedOf) && accept r) ∧
    ((hereIs accept bk allPeers peer r).1 = true →
      (hereIs accept bk allPeers peer r).2.2 =
        allPeers.filter (fun q => q ≠ peer)) ∧
    ((hereIs accept bk allPeers peer r).1 = false →
      (hereIs accept bk allPeers peer r).2.2 = []) := by
  unfold hereIs SubBookkeeper.received peerSetNotify
  dsimp only
  by_cases hmem : (peer, r) ∈ bk.requestedOf
  · rw [if_pos hmem]
    cases h : accept r <;> simp [hmem, h]
  · rw [if_neg hmem]
    simp [hmem]

lemma reassignStep_spec (acc : SubBookkeeper × List (PeerId × NR)) (r : NR) :
    (reassignStep acc r).2 =
      acc.2 ++ (((acc.1.altsOf r).head?).map (fun a => (a, r))).toList ∧
    (reassignStep acc r).1.requestedOf =
      acc.1.requestedOf ++
        (((acc.1.altsOf r).head?).map (fun a => (a, r))).toList ∧
    ∀ r', r' ≠ r → (reassignStep acc r).1.altsOf r' = acc.1.altsOf r' := by
  unfold reassignStep SubBookkeeper.popBestAlt SubBookkeeper.requested
  cases h : acc.1.altsOf r with
  | nil => simp [h]
  | cons a rest =>
      refine ⟨by simp [h], by simp [h], ?_⟩
      intro r' hne
      simp [h, hne]

lemma foldl_reassignStep_spec (reqs : List NR) :
    ∀ (bk : SubBookkeeper) (sent : List (PeerId × NR)), reqs.Nodup →
      (reqs.foldl reassignStep (bk, sent)).2 =
        sent ++ reqs.filterMap
          (fun r => ((bk.altsOf r).head?).map (fun a => (a, r))) ∧
      (reqs.foldl reassignStep (bk, sent)).1.requestedOf =
        bk.requestedOf ++ reqs.filterMap
          (fun r => ((bk.altsOf r).head?).map (fun a => (a, r))) := by
  induction reqs with
  | nil => intro bk sent _; simp
  | cons r rest ih =>
      intro bk sent hnd
      rcases List.nodup_cons.mp hnd with ⟨hnotin, hrest⟩
      rw [List.foldl_cons]
      have hstep := reassignStep_spec (bk, sent) r
      rcases hstep with ⟨hsent, hreq, halts⟩
      have heta : reassignStep (bk, sent) r =
          ((reassignStep (bk, sent) r).1, (reassignStep (bk, sent) r).2) := rfl
      rw [heta]
      rcases ih (reassignStep (bk, sent) r).1 (reassignStep (bk, sent) r).2
        hrest with ⟨ih1, ih2⟩
      have hcong : rest.filterMap
          (fun r' => (((reassignStep (bk, sent) r).1.altsOf r').head?).map
            (fun a => (a, r'))) =
          rest.filterMap (fun r' => ((bk.altsOf r').head?).map
            (fun a => (a, r'))) := by
        refine List.filterMap_congr ?_
        intro r' hr'
        rw [halts r' (fun hEq => hnotin (hEq ▸ hr'))]
      constructor
      · rw [ih1, hcong, hsent]
        cases h : (bk.altsOf r).head? <;> simp [List.filterMap_cons, h]
      · rw [ih2, hcong, hreq]
        cases h : (bk.altsOf r).head? <;> simp [List.filterMap_cons, h]

/-- C5: when a subscriber's peer dies, `stopped` runs `reassignPending` on the
peer's outstanding requests (read from the bookkeeper) before erasing the
peer. For each such request: if an alternate candidate exists, the best one
(head of the alternates list) is popped, the request is sent to it and
recorded as assigned to it; if none exists, the request is dropped silently
— afterwards no peer holds it and nothing was sent for it. The hypotheses
are the bookkeeper invariants: a peer's outstanding requests are a set (no
duplicates), the dead peer is not its own alternate, and each outstanding
request is assigned to exactly one peer. -/
theorem stoppedSub_reassigns (bk : SubBookkeeper) (peer : PeerId)
    (hnd : (SubBookkeeper.getRequested bk peer).Nodup)
    (hnp : ∀ r ∈ SubBookkeeper.getRequested bk peer, peer ∉ bk.altsOf r)
    (huniq : ∀ pr ∈ bk.requestedOf,
      pr.2 ∈ SubBookkeeper.getRequested bk peer → pr.1 = peer) :
    ∀ r ∈ SubBookkeeper.getRequested bk peer,
      match (bk.altsOf r).head? with
      | some alt =>
          (alt, r) ∈ (stoppedSub bk peer).2 ∧
          (alt, r) ∈ (stoppedSub bk peer).1.requestedOf
      | none =>
          (∀ q : PeerId, (q, r) ∉ (stoppedSub bk peer).2) ∧
          (∀ q : PeerId, (q, r) ∉ (stoppedSub bk peer).1.requestedOf) := by
  intro r hr
  have hchar := foldl_reassignStep_spec (SubBookkeeper.getRequested bk peer)
    bk [] hnd
  rcases hchar with ⟨hsent, hreq⟩
  have hsub : stoppedSub bk peer =
      (SubBookkeeper.erase (reassignPending bk peer).1 peer,
       (reassignPending bk peer).2) := rfl
  cases halt : (bk.altsOf r).head? with
  | some alt =>
      have halt_mem : alt ∈ bk.altsOf r := by
        cases hl : bk.altsOf r with
        | nil => rw [hl] at halt; exact absurd halt (by simp)
        | cons a rest =>
            rw [hl] at halt
            simp only [List.head?_cons, Option.some.injEq] at halt
            rw [← halt]
            exact List.mem_cons_self a rest
      have hne : alt ≠ peer := fun hEq => hnp r hr (hEq ▸ halt_mem)
      have hmem_fm : (alt, r) ∈ (SubBookkeeper.getRequested bk peer).filterMap
          (fun r' => ((bk.altsOf r').head?).map (fun a => (a, r'))) :=
        List.mem_filterMap.mpr ⟨r, hr, by rw [halt]; rfl⟩
      refine ⟨?_, ?_⟩
      · rw [hsub]
        show (alt, r) ∈ (reassignPending bk peer).2
        rw [reassignPending, hsent]
        exact List.mem_append_right _ hmem_fm
      · rw [hsub]
        show (alt, r) ∈ ((reassignPending bk peer).1.requestedOf.filter
          (fun pr => pr.1 ≠ peer))
        refine List.mem_filter.mpr ⟨?_, by simpa using hne⟩
        rw [reassignPending, hreq]
        exact List.mem_append_right _ hmem_fm
  | none =>
      have hnofm : ∀ q : PeerId,
          (q, r) ∉ (SubBookkeeper.getRequested bk peer).filterMap
            (fun r' => ((bk.altsOf r').head?).map (fun a => (a, r'))) := by
        intro q hq
        rcases List.mem_filterMap.mp hq with ⟨r', _, hmap⟩
        rcases Option.map_eq_some'.mp hmap with ⟨a, ha, hpair⟩
        have hrr : r' = r := congrArg Prod.snd hpair
        rw [hrr] at ha
        rw [halt] at ha
        exact Option.noConfusion ha
      refine ⟨?_, ?_⟩
      · intro q hq
        rw [hsub] at hq
        have : (q, r) ∈ (reassignPending bk peer).2 := hq
        rw [reassignPending, hsent] at this
        rcases List.mem_append.mp this with h0 | h1
        · exact absurd h0 (by simp)
        · exact hnofm q h1
      · intro q hq
        rw [hsub] at hq
        have hq2 : (q, r) ∈ ((reassignPending bk peer).1.requestedOf.filter
          (fun pr => pr.1 ≠ peer)) := hq
        rcases List.mem_filter.mp hq2 with ⟨hmem, hqne⟩
        rw [reassignPending, hreq] at hmem
        rcases List.mem_append.mp hmem with h0 | h1
        · have : q = peer := huniq (q, r) h0 hr
          simp [this] at hqne
        · exact hnofm q h1

/-- C5 (witness): the theorem applied to a concrete bookkeeper in which the
dead peer `1` holds two outstanding requests: item `10` with alternate
candidate `7`, and item `11` with no alternate. -/
theorem stoppedSub_reassigns_witness :
    (SubBookkeeper.getRequested
        ⟨[(1, 10), (1, 11)], fun c => if c = 10 then [7] else [],
         fun _ => [], fun _ => 0⟩ 1).Nodup ∧
    ∀ r ∈ SubBookkeeper.getRequested
        ⟨[(1, 10), (1, 11)], fun c => if c = 10 then [7] else [],
         fun _ => [], fun _ => 0⟩ 1,
      match ((⟨[(1, 10), (1, 11)], fun c => if c = 10 then [7] else [],
          fun _ => [], fun _ => 0⟩ : SubBookkeeper).altsOf r).head? with
      | some alt =>
          (alt, r) ∈ (stoppedSub ⟨[(1, 10), (1, 11)],
            fun c => if c = 10 then [7] else [], fun _ => [], fun _ => 0⟩ 1).2 ∧
          (alt, r) ∈ (stoppedSub ⟨[(1, 10), (1, 11)],
            fun c => if c = 10 then [7] else [],
            fun _ => [], fun _ => 0⟩ 1).1.requestedOf
      | none =>
          (∀ q : PeerId, (q, r) ∉ (stoppedSub ⟨[(1, 10), (1, 11)],
            fun c => if c = 10 then [7] else [],
            fun _ => [], fun _ => 0⟩ 1).2) ∧
          (∀ q : PeerId, (q, r) ∉ (stoppedSub ⟨[(1, 10), (1, 11)],
            fun c => if c = 10 then [7] else [],
            fun _ => [], fun _ => 0⟩ 1).1.requestedOf) :=
  ⟨by decide, stoppedSub_reassigns _ 1 (by decide)
    (by intro r hr
        fin_cases hr <;> simp)
    (by intro pr hpr
        fin_cases hpr <;> simp)⟩

/-- C8 (counterexample): the claim asserts that whenever a manager-owned task
reports an exception, `run()` rethrows the captured exception after a clean
shutdown. On the concrete run in which a task reports exception `7` and
`halt()` is then called before `waitUntilDone` wakes, the exception is
captured but `waitUntilDone` sees `done` set and does not rethrow: `run()`
returns normally. -/
theorem runResult_halt_no_rethrow :
    firstExc [TaskEvent.taskExc 7, TaskEvent.haltCall] = some 7 ∧
    runResult [TaskEvent.taskExc 7, TaskEvent.haltCall] =
      some (RunOutcome.normal, true) ∧
    ¬ (runResult [TaskEvent.taskExc 7, TaskEvent.haltCall] =
      some (RunOutcome.threw 7, true)) := by
  refine ⟨rfl, rfl, by decide⟩

lemma bytesLt_irrefl (l : List Nat) : bytesLt l l = false := by
  induction l with
  | nil => rfl
  | cons a as ih => simp [bytesLt, ih]

lemma bytesLt_trans (a : List Nat) :
    ∀ b c : List Nat, bytesLt a b = true → bytesLt b c = true →
      bytesLt a c = true := by
  induction a with
  | nil =>
      intro b c hab hbc
      cases c with
      | nil =>
          cases b with
          | nil => exact hab
          | cons y ys => exact absurd hbc (by simp [bytesLt])
      | cons z zs => simp [bytesLt]
  | cons x xs ih =>
      intro b c hab hbc
      cases b with
      | nil => exact absurd hab (by simp [bytesLt])
      | cons y ys =>
          cases c with
          | nil => exact absurd hbc (by simp [bytesLt])
          | cons z zs =>
              simp only [bytesLt, Bool.or_eq_true, Bool.and_eq_true,
                decide_eq_true_eq] at hab hbc ⊢
              rcases hab with hxy | ⟨hxy, hrest⟩
              · rcases hbc with hyz | ⟨hyz, _⟩
                · exact Or.inl (Nat.lt_trans hxy hyz)
                · exact Or.inl (hyz ▸ hxy)
              · rcases hbc with hyz | ⟨hyz, hrest2⟩
                · exact Or.inl (hxy ▸ hyz)
                · exact Or.inr ⟨hxy.trans hyz, ih ys zs hrest hrest2⟩

lemma bytesLt_eq_of_not (a : List Nat) :
    ∀ b : List Nat, bytesLt a b = false → bytesLt b a = false → a = b := by
  induction a with
  | nil =>
      intro b hab _
      cases b with
      | nil => rfl
      | cons y ys => exact absurd hab (by simp [bytesLt])
  | cons x xs ih =>
      intro b hab hba
      cases b with
      | nil => exact absurd hba (by simp [bytesLt])
      | cons y ys =>
          simp only [bytesLt, Bool.or_eq_false_iff, Bool.and_eq_false_iff,
            decide_eq_false_iff_not] at hab hba
          rcases hab with ⟨hnxy, hab2⟩
          rcases hba with ⟨hnyx, hba2⟩
          have hxy : x = y := by omega
          subst hxy
          rcases hab2 with h | h
          · exact absurd rfl h
          · rcases hba2 with h2 | h2
            · exact absurd rfl h2
            · rw [ih ys h h2]

lemma exists_four (x : List Nat) (h : x.length = 4) :
    ∃ a b c d : Nat, x = [a, b, c, d] := by
  cases x with
  | nil => simp at h
  | cons a t1 =>
      cases t1 with
      | nil => simp at h
      | cons b t2 =>
          cases t2 with
          | nil => simp at h
          | cons c t3 =>
              cases t3 with
              | nil => simp at h
              | cons d t4 =>
                  cases t4 with
                  | nil => exact ⟨a, b, c, d, rfl⟩
                  | cons e t5 => simp at h

lemma ntohl_inj4 (x y : List Nat)
    (hx4 : x.length = 4) (hxb : ∀ b ∈ x, b < 256)
    (hy4 : y.length = 4) (hyb : ∀ b ∈ y, b < 256)
    (h : ntohl x = ntohl y) : x = y := by
  obtain ⟨a, b, c, d, rfl⟩ := exists_four x hx4
  obtain ⟨e, f, g, k, rfl⟩ := exists_four y hy4
  have ha : a < 256 := hxb a (by simp)
  have hb : b < 256 := hxb b (by simp)
  have hc : c < 256 := hxb c (by simp)
  have hd : d < 256 := hxb d (by simp)
  have he : e < 256 := hyb e (by simp)
  have hf : f < 256 := hyb f (by simp)
  have hg : g < 256 := hyb g (by simp)
  have hk : k < 256 := hyb k (by simp)
  have hval : ∀ p q r s : Nat,
      ntohl [p, q, r, s] = (((0 * 256 + p) * 256 + q) * 256 + r) * 256 + s :=
    fun p q r s => rfl
  rw [hval, hval] at h
  have : a = e ∧ b = f ∧ c = g ∧ d = k := by omega
  simp [this.1, this.2.1, this.2.2.1, this.2.2.2]

lemma inAddrLt_eq_lexLt (a b : InAddr) (ha : a.wf) (hb : b.wf) :
    InAddr.lt a b = lexLt a b := by
  cases a with
  | in4 x =>
      cases b with
      | in4 y =>
          rcases ha with ⟨hx4, hxb⟩
          rcases hb with ⟨hy4, hyb⟩
          simp only [InAddr.lt, lexLt, ltAgainst4, eqAgainst4]
          rcases Nat.lt_trichotomy (ntohl x) (ntohl y) with h | h | h
          · have h1 : decide (ntohl y < ntohl x) = false :=
              decide_eq_false (by omega)
            have h2 : (y == x) = false := beq_eq_false_iff_ne.mpr
              (fun hEq => by rw [hEq] at h; exact Nat.lt_irrefl _ h)
            rw [h1, h2, decide_eq_true h]
            rfl
          · have hxy : y = x := (ntohl_inj4 x y hx4 hxb hy4 hyb h).symm
            subst hxy
            simp
          · rw [decide_eq_true h,
              decide_eq_false (by omega : ¬ ntohl x < ntohl y)]
            rfl
      | in6 y => simp [InAddr.lt, lexLt, ltAgainst4, eqAgainst4, tagRank]
      | name y => simp [InAddr.lt, lexLt, ltAgainst4, eqAgainst4, tagRank]
  | in6 x =>
      cases b with
      | in4 y => simp [InAddr.lt, lexLt, ltAgainst6, eqAgainst6, tagRank]
      | in6 y =>
          simp only [InAddr.lt, lexLt, ltAgainst6, eqAgainst6]
          cases h1 : bytesLt x y
          · cases h2 : bytesLt y x
            · have : x = y := bytesLt_eq_of_not x y h1 h2
              subst this
              simp [bytesLt_irrefl]
            · simp [h2]
          · cases h2 : bytesLt y x
            · have h3 : ¬ (y = x) := fun hEq => by
                subst hEq
                rw [bytesLt_irrefl] at h1
                exact Bool.noConfusion h1
              simp [h2, h3]
            · have := bytesLt_trans x y x h1 h2
              rw [bytesLt_irrefl] at this
              exact Bool.noConfusion this
      | name y => simp [InAddr.lt, lexLt, ltAgainst6, eqAgainst6, tagRank]
  | name x =>
      cases b with
      | in4 y => simp [InAddr.lt, lexLt, ltAgainstName, eqAgainstName, tagRank]
      | in6 y => simp [InAddr.lt, lexLt, ltAgainstName, eqAgainstName, tagRank]
      | name y =>
          simp only [InAddr.lt, lexLt, ltAgainstName, eqAgainstName]
          cases h1 : bytesLt x y
          · cases h2 : bytesLt y x
            · have : x = y := bytesLt_eq_of_not x y h1 h2
              subst this
              simp [bytesLt_irrefl]
            · simp [h2]
          · cases h2 : bytesLt y x
            · have h3 : ¬ (y = x) := fun hEq => by
                subst hEq
                rw [bytesLt_irrefl] at h1
                exact Bool.noConfusion h1
              simp [h2, h3]
            · have := bytesLt_trans x y x h1 h2
              rw [bytesLt_irrefl] at this
              exact Bool.noConfusion this

lemma lexLt_irrefl (a : InAddr) : lexLt a a = false := by
  cases a with
  | in4 x => simp [lexLt]
  | in6 x => simp [lexLt, bytesLt_irrefl]
  | name x => simp [lexLt, bytesLt_irrefl]

lemma lexLt_trans (a b c : InAddr) (hab : lexLt a b = true)
    (hbc : lexLt b c = true) : lexLt a c = true := by
  cases a <;> cases b <;> cases c <;>
    simp only [lexLt, tagRank, decide_eq_true_eq] at hab hbc ⊢
  all_goals first
    | trivial
    | omega
    | exact Nat.lt_trans hab hbc
    | exact bytesLt_trans _ _ _ hab hbc

lemma lexLt_total (a b : InAddr) (ha : a.wf) (hb : b.wf) (hne : a ≠ b) :
    lexLt a b = true ∨ lexLt b a = true := by
  cases a with
  | in4 x =>
      cases b with
      | in4 y =>
          rcases ha with ⟨hx4, hxb⟩
          rcases hb with ⟨hy4, hyb⟩
          simp only [lexLt, decide_eq_true_eq]
          rcases Nat.lt_trichotomy (ntohl x) (ntohl y) with h | h | h
          · exact Or.inl h
          · exact absurd (congrArg InAddr.in4 (ntohl_inj4 x y hx4 hxb hy4 hyb h))
              hne
          · exact Or.inr h
      | in6 y => simp [lexLt, tagRank]
      | name y => simp [lexLt, tagRank]
  | in6 x =>
      cases b with
      | in4 y => simp [lexLt, tagRank]
      | in6 y =>
          simp only [lexLt]
          cases h1 : bytesLt x y
          · cases h2 : bytesLt y x
            · exact absurd (congrArg InAddr.in6 (bytesLt_eq_of_not x y h1 h2))
                hne
            · exact Or.inr rfl
          · exact Or.inl rfl
      | name y => simp [lexLt, tagRank]
  | name x =>
      cases b with
      | in4 y => simp [lexLt, tagRank]
      | in6 y => simp [lexLt, tagRank]
      | name y =>
          simp only [lexLt]
          cases h1 : bytesLt x y
          · cases h2 : bytesLt y x
            · exact absurd (congrArg InAddr.name (bytesLt_eq_of_not x y h1 h2))
                hne
            · exact Or.inr rfl
          · exact Or.inl rfl

/-- C9: on well-formed addresses, the `InAddr::operator<` double dispatch
agrees with the specification's lexicographic order on `(tag, payload)` with
tag order v4 < v6 < name (IPv4 by host-byte-order numeric value, IPv6
byte-wise, names by string order), and it is a strict total order:
irreflexive, transitive, and total on distinct addresses. -/
theorem inAddr_lt_strict_total_lex (a b c : InAddr)
    (ha : a.wf) (hb : b.wf) (hc : c.wf) :
    (InAddr.lt a b = lexLt a b) ∧
    InAddr.lt a a = false ∧
    (InAddr.lt a b = true → InAddr.lt b c = true → InAddr.lt a c = true) ∧
    (a ≠ b → InAddr.lt a b = true ∨ InAddr.lt b a = true) := by
  refine ⟨inAddrLt_eq_lexLt a b ha hb, ?_, ?_, ?_⟩
  · rw [inAddrLt_eq_lexLt a a ha ha]
    exact lexLt_irrefl a
  · intro hab hbc
    rw [inAddrLt_eq_lexLt a c ha hc]
    rw [inAddrLt_eq_lexLt a b ha hb] at hab
    rw [inAddrLt_eq_lexLt b c hb hc] at hbc
    exact lexLt_trans a b c hab hbc
  · intro hne
    rw [inAddrLt_eq_lexLt a b ha hb, inAddrLt_eq_lexLt b a hb ha]
    exact lexLt_total a b ha hb hne

/-- C9 (witness): the theorem applied to the IPv4 address `10.0.0.1`, the
IPv6 address `::1`, and the host name "a". -/
theorem inAddr_lt_strict_total_lex_witness :
    (InAddr.lt (InAddr.in4 [10, 0, 0, 1])
        (InAddr.in6 [0, 0, 0, 0, 0, 0, 0, 0, 0, 0, 0, 0, 0, 0, 0, 1]) =
      lexLt (InAddr.in4 [10, 0, 0, 1])
        (InAddr.in6 [0, 0, 0, 0, 0, 0, 0, 0, 0, 0, 0, 0, 0, 0, 0, 1])) ∧
    InAddr.lt (InAddr.in4 [10, 0, 0, 1]) (InAddr.in4 [10, 0, 0, 1]) = false ∧
    (InAddr.lt (InAddr.in4 [10, 0, 0, 1])
        (InAddr.in6 [0, 0, 0, 0, 0, 0, 0, 0, 0, 0, 0, 0, 0, 0, 0, 1]) = true →
      InAddr.lt (InAddr.in6 [0, 0, 0, 0, 0, 0, 0, 0, 0, 0, 0, 0, 0, 0, 0, 1])
        (InAddr.name [97]) = true →
      InAddr.lt (InAddr.in4 [10, 0, 0, 1]) (InAddr.name [97]) = true) ∧
    (InAddr.in4 [10, 0, 0, 1] ≠
        InAddr.in6 [0, 0, 0, 0, 0, 0, 0, 0, 0, 0, 0, 0, 0, 0, 0, 1] →
      InAddr.lt (InAddr.in4 [10, 0, 0, 1])
          (InAddr.in6 [0, 0, 0, 0, 0, 0, 0, 0, 0, 0, 0, 0, 0, 0, 0, 1]) =
        true ∨
      InAddr.lt (InAddr.in6 [0, 0, 0, 0, 0, 0, 0, 0, 0, 0, 0, 0, 0, 0, 0, 1])
          (InAddr.in4 [10, 0, 0, 1]) = true) :=
  inAddr_lt_strict_total_lex (InAddr.in4 [10, 0, 0, 1])
    (InAddr.in6 [0, 0, 0, 0, 0, 0, 0, 0, 0, 0, 0, 0, 0, 0, 0, 1])
    (InAddr.name [97])
    (by constructor <;> decide) (by constructor <;> decide) trivial

end Hycast
